import Mathlib

/-!
Verification development for the occupancy octree core (OctoMap).

The repository ships two headers: `OcTreeKey.h` (key container, inline
implementations) and `OccupancyOcTreeBase.h` (declarations of the occupancy
tree operations; the implementation file `OccupancyOcTreeBase.hxx` is not part
of the sources).  Key-level definitions below are translated from
`OcTreeKey.h`; the tree operations are modelled from the specification, as
noted on each definition.
-/

namespace Octomap

/-- Key container from `OcTreeKey.h`: three 16-bit unsigned components
stored in the array `k[3]`; component `i` is accessed through `operator[]`.
We model the array by its three cells. -/
structure OcTreeKey where
  ka : Nat
  kb : Nat
  kc : Nat
deriving DecidableEq, Repr

/-- Total embedding of `OcTreeKey::operator[]` from `OcTreeKey.h`: the C++
code indexes `k[i]` with no bounds check, so the embedding returns an
`Option`, with `none` exactly on the out-of-bounds indices `i ≥ 3`. -/
def OcTreeKey.get? (key : OcTreeKey) (i : Nat) : Option Nat :=
  match i with
  | 0 => some key.ka
  | 1 => some key.kb
  | 2 => some key.kc
  | _ => none

/-- `OcTreeKey::operator==` from `OcTreeKey.h`: returns `false` if any of the
three components differs, `true` otherwise. -/
def OcTreeKey.eqb (key other : OcTreeKey) : Bool :=
  if key.ka != other.ka || key.kb != other.kb || key.kc != other.kc then false
  else true

/-- Occupancy and sensor-model parameters of the tree, stored in log-odds
(fields of `OccupancyOcTreeBase`, lines 434-439 of the header).  Log-odds
values are modelled as rationals. -/
structure Params where
  clampingThresMin : ℚ
  clampingThresMax : ℚ
  probHitLog : ℚ
  probMissLog : ℚ
  occProbThresLog : ℚ
deriving DecidableEq, Repr

/-- Modelled from the spec: the octree node (`NODE`, §3 of the spec; the node
class itself is not among the sources).  A node owns a log-odds value and
eight optional children; a node is a leaf iff all eight child slots are
empty. -/
inductive OTree where
  | node (val : ℚ) (c0 c1 c2 c3 c4 c5 c6 c7 : Option OTree)

/-- The stored log-odds value of a node. -/
def OTree.val : OTree → ℚ
  | .node v _ _ _ _ _ _ _ _ => v

/-- Child slot `i` of a node (`none` for `i ≥ 8`). -/
def OTree.child : OTree → Nat → Option OTree
  | .node _ c0 c1 c2 c3 c4 c5 c6 c7, i =>
    match i with
    | 0 => c0
    | 1 => c1
    | 2 => c2
    | 3 => c3
    | 4 => c4
    | 5 => c5
    | 6 => c6
    | 7 => c7
    | _ => none

/-- Replace child slot `i` of a node. -/
def OTree.setChild : OTree → Nat → Option OTree → OTree
  | .node v c0 c1 c2 c3 c4 c5 c6 c7, i, c =>
    match i with
    | 0 => .node v c c1 c2 c3 c4 c5 c6 c7
    | 1 => .node v c0 c c2 c3 c4 c5 c6 c7
    | 2 => .node v c0 c1 c c3 c4 c5 c6 c7
    | 3 => .node v c0 c1 c2 c c4 c5 c6 c7
    | 4 => .node v c0 c1 c2 c3 c c5 c6 c7
    | 5 => .node v c0 c1 c2 c3 c4 c c6 c7
    | 6 => .node v c0 c1 c2 c3 c4 c5 c c7
    | 7 => .node v c0 c1 c2 c3 c4 c5 c6 c
    | _ => .node v c0 c1 c2 c3 c4 c5 c6 c7

/-- A node is a leaf iff it has no children (spec §3). -/
def OTree.isLeaf : OTree → Bool
  | .node _ c0 c1 c2 c3 c4 c5 c6 c7 =>
    c0.isNone && c1.isNone && c2.isNone && c3.isNone &&
    c4.isNone && c5.isNone && c6.isNone && c7.isNone

/-- A fresh node with the neutral log-odds prior 0 and no children
(spec §4.3: missing children are created with log-odds 0). -/
def newNode : OTree := .node 0 none none none none none none none none

/-- Modelled from the spec (§4.4, and `isNodeOccupied` of the header):
a node value is occupied iff `v ≥ occProbThresLog`. -/
def isOccVal (p : Params) (v : ℚ) : Bool := p.occProbThresLog ≤ v

/-- Modelled from the spec (§4.4, and `isNodeAtThreshold` of the header):
`v ≤ clampingThresMin ∨ v ≥ clampingThresMax`. -/
def atThresholdVal (p : Params) (v : ℚ) : Bool :=
  v ≤ p.clampingThresMin || p.clampingThresMax ≤ v

/-- Modelled from the spec (§4.4): clamp a log-odds value into
`[clampingThresMin, clampingThresMax]`. -/
def clampVal (p : Params) (x : ℚ) : ℚ :=
  max p.clampingThresMin (min x p.clampingThresMax)

/-- Modelled from the spec (§4.4, `updateNodeLogOdds` of the header):
`node.log_odds = clamp(node.log_odds + Δ)`, children untouched. -/
def updateNodeLogOdds (p : Params) (t : OTree) (delta : ℚ) : OTree :=
  match t with
  | .node v c0 c1 c2 c3 c4 c5 c6 c7 =>
    .node (clampVal p (v + delta)) c0 c1 c2 c3 c4 c5 c6 c7

/-- Modelled from the spec (§4.3): the per-node maximum-likelihood rewrite,
`clampingThresMax` if `v ≥ occProbThresLog`, else `clampingThresMin`
(`nodeToMaxLikelihood` of the header). -/
def mlVal (p : Params) (v : ℚ) : ℚ :=
  if p.occProbThresLog ≤ v then p.clampingThresMax else p.clampingThresMin

/-- Modelled from the spec (§4.3, `toMaxLikelihood` of the header):
post-order traversal rewriting every node's log-odds by `mlVal`.  The
level index bounds the recursion (16 at the root; the tree invariant is
depth at most 16). -/
def toMaxLikelihood (p : Params) : Nat → OTree → OTree
  | 0, t => .node (mlVal p t.val) (t.child 0) (t.child 1) (t.child 2)
      (t.child 3) (t.child 4) (t.child 5) (t.child 6) (t.child 7)
  | l + 1, t =>
    .node (mlVal p t.val)
      ((t.child 0).map (toMaxLikelihood p l))
      ((t.child 1).map (toMaxLikelihood p l))
      ((t.child 2).map (toMaxLikelihood p l))
      ((t.child 3).map (toMaxLikelihood p l))
      ((t.child 4).map (toMaxLikelihood p l))
      ((t.child 5).map (toMaxLikelihood p l))
      ((t.child 6).map (toMaxLikelihood p l))
      ((t.child 7).map (toMaxLikelihood p l))

/-- A leaf node carrying log-odds value `w`. -/
def mkLeaf (w : ℚ) : OTree := .node w none none none none none none none none

/-- Bit `b` of a key component. -/
def keyBit (k b : Nat) : Nat := k / 2 ^ b % 2

/-- Modelled from the spec (§3/§4.1, `child_index`): the child index taken
during top-down descent extracts one bit per axis at position `b`, packed
with the x-bit least significant. -/
def childIdx (key : OcTreeKey) (b : Nat) : Nat :=
  keyBit key.ka b + 2 * keyBit key.kb b + 4 * keyBit key.kc b

/-- Modelled from the spec (§4.3, `search`): top-down descent along
`childIdx`; `lvl` is the number of levels remaining to the finest depth
(16 at the root).  A leaf stops the descent and is returned; a missing
child on the path of a non-leaf node yields `none` (unknown). -/
def searchVal (q : OcTreeKey) : Nat → OTree → Option ℚ
  | 0, t => some t.val
  | l + 1, t =>
    if t.isLeaf then some t.val
    else
      match t.child (childIdx q l) with
      | some c => searchVal q l c
      | none => none

/-- The value of a childless (leaf) node, `none` otherwise. -/
def leafVal? : Option OTree → Option ℚ
  | some (.node w none none none none none none none none) => some w
  | _ => none

/-- Modelled from the spec (§4.3): the value a node would prune to — `some w`
iff all eight children exist, are leaves, and carry the same stored value
`w` (compared exactly). -/
def prunableVal (t : OTree) : Option ℚ :=
  (leafVal? (t.child 0)).bind fun w =>
    if leafVal? (t.child 1) = some w ∧ leafVal? (t.child 2) = some w ∧
       leafVal? (t.child 3) = some w ∧ leafVal? (t.child 4) = some w ∧
       leafVal? (t.child 5) = some w ∧ leafVal? (t.child 6) = some w ∧
       leafVal? (t.child 7) = some w then some w
    else none

/-- Modelled from the spec (§4.3): one bottom-up pruning attempt — if the
eight children are equal-valued leaves, the parent adopts their value and
releases them; otherwise the node is unchanged. -/
def pruneNode (t : OTree) : OTree :=
  match prunableVal t with
  | some w => mkLeaf w
  | none => t

/-- Modelled from the spec (§4.3, `updateNodeRecurs` of the header): descend
from the root (`lvl = 16`) to the finest depth along `childIdx`, creating
missing children with the neutral prior 0; at the bottom apply
`updateNodeLogOdds`; on the way back up attempt pruning unless
`lazy_eval` is set. -/
def updR (p : Params) (lazy : Bool) (delta : ℚ) (key : OcTreeKey) :
    Nat → OTree → OTree
  | 0, t => updateNodeLogOdds p t delta
  | l + 1, t =>
    let i := childIdx key l
    let c := (t.child i).getD newNode
    let t2 := t.setChild i (some (updR p lazy delta key l c))
    if lazy then t2 else pruneNode t2

/-- The values of the present children among eight slots. -/
def presentVals (c0 c1 c2 c3 c4 c5 c6 c7 : Option OTree) : List ℚ :=
  [c0, c1, c2, c3, c4, c5, c6, c7].filterMap (Option.map OTree.val)

/-- Aggregate an inner value from children values (maximum, occupied-wins,
spec §4.4); a childless node keeps its own value. -/
def aggVal (v : ℚ) : List ℚ → ℚ
  | [] => v
  | x :: xs => xs.foldl max x

/-- Modelled from the spec (§4.3, `updateInnerOccupancy` of the header):
post-order traversal setting every inner node's log-odds to the maximum of
its children's log-odds, to remaining level `l`. -/
def updateInner : Nat → OTree → OTree
  | 0, t => t
  | l + 1, t =>
    .node
      (aggVal t.val (presentVals
        ((t.child 0).map (updateInner l)) ((t.child 1).map (updateInner l))
        ((t.child 2).map (updateInner l)) ((t.child 3).map (updateInner l))
        ((t.child 4).map (updateInner l)) ((t.child 5).map (updateInner l))
        ((t.child 6).map (updateInner l)) ((t.child 7).map (updateInner l))))
      ((t.child 0).map (updateInner l)) ((t.child 1).map (updateInner l))
      ((t.child 2).map (updateInner l)) ((t.child 3).map (updateInner l))
      ((t.child 4).map (updateInner l)) ((t.child 5).map (updateInner l))
      ((t.child 6).map (updateInner l)) ((t.child 7).map (updateInner l))

/-- `depthLE l t`: every path of the tree reaches a leaf within `l` more
levels (the data-model invariant that the tree is at most 16 deep). -/
def depthLE : Nat → OTree → Bool
  | 0, t => t.isLeaf
  | l + 1, t =>
    ((t.child 0).elim true (depthLE l)) && ((t.child 1).elim true (depthLE l)) &&
    ((t.child 2).elim true (depthLE l)) && ((t.child 3).elim true (depthLE l)) &&
    ((t.child 4).elim true (depthLE l)) && ((t.child 5).elim true (depthLE l)) &&
    ((t.child 6).elim true (depthLE l)) && ((t.child 7).elim true (depthLE l))

/-- All leaf log-odds values of a tree to remaining level `l`, in child
order 0..7: a leaf contributes its own value, an inner node the values of
its subtrees. -/
def leafVals : Nat → OTree → List ℚ
  | 0, t => [t.val]
  | l + 1, t =>
    if t.isLeaf then [t.val]
    else
      ((t.child 0).elim [] (leafVals l)) ++
      (((t.child 1).elim [] (leafVals l)) ++
       (((t.child 2).elim [] (leafVals l)) ++
        (((t.child 3).elim [] (leafVals l)) ++
         (((t.child 4).elim [] (leafVals l)) ++
          (((t.child 5).elim [] (leafVals l)) ++
           (((t.child 6).elim [] (leafVals l)) ++
            ((t.child 7).elim [] (leafVals l))))))))

/-- A 3D point with rational coordinates (`point3d` of the sources; log-odds
and coordinates are modelled over ℚ). -/
structure Point3 where
  x : ℚ
  y : ℚ
  z : ℚ
deriving DecidableEq, Repr

/-- Modelled from the spec (§4.1, `coord_to_key`): at resolution `r`, the
key component for coordinate `c` is `⌊c / r⌋ + 2^15`; the conversion fails
(`OutOfRange`) when that integer falls outside `[0, 2^16)`. -/
def coordToKeyQ (r c : ℚ) : Option Nat :=
  if 0 ≤ ⌊c / r⌋ + 32768 ∧ ⌊c / r⌋ + 32768 < 65536
  then some (⌊c / r⌋ + 32768).toNat else none

/-- Key generation for a 3D point: all three components must convert. -/
def coordToKey3 (r : ℚ) (pt : Point3) : Option OcTreeKey :=
  match coordToKeyQ r pt.x, coordToKeyQ r pt.y, coordToKeyQ r pt.z with
  | some a, some b, some c => some ⟨a, b, c⟩
  | _, _, _ => none

/-- Squared Euclidean distance between two points. -/
def dist2 (a b : Point3) : ℚ :=
  (a.x - b.x) ^ 2 + (a.y - b.y) ^ 2 + (a.z - b.z) ^ 2

/-- Modelled from the spec (§4.6): an endpoint is integrated as occupied when
`maxrange < 0` or its distance from the origin is at most `maxrange`
(compared on squares, as both sides are nonnegative). -/
def inRangeB (maxrange : ℚ) (origin p : Point3) : Bool :=
  maxrange < 0 || dist2 p origin ≤ maxrange ^ 2

/-- Modelled from the spec (§4.6, `computeUpdate` steps 1-2): accumulate the
free and occupied key lists over the scan.  The ray enumerators are
parameters of the model: `rayF origin p` lists the keys traversed strictly
before the endpoint voxel (§4.5), and `rayC origin maxrange p` lists the
keys of the ray clipped at `maxrange`, clipped endpoint included.  An
endpoint whose key generation fails is silently skipped (§7). -/
def computeCells (r : ℚ) (rayF : Point3 → Point3 → List OcTreeKey)
    (rayC : Point3 → ℚ → Point3 → List OcTreeKey)
    (origin : Point3) (maxrange : ℚ) :
    List Point3 → List OcTreeKey × List OcTreeKey
  | [] => ([], [])
  | pt :: ps =>
    let rest := computeCells r rayF rayC origin maxrange ps
    if inRangeB maxrange origin pt then
      match coordToKey3 r pt with
      | some k => (rayF origin pt ++ rest.1, k :: rest.2)
      | none => rest
    else (rayC origin maxrange pt ++ rest.1, rest.2)

/-- Modelled from the spec (§4.6, `computeUpdate` step 3): after collecting
both key sets, every key that appears in `occupied_cells` is removed from
`free_cells` (occupied wins). -/
def computeUpdate (r : ℚ) (rayF : Point3 → Point3 → List OcTreeKey)
    (rayC : Point3 → ℚ → Point3 → List OcTreeKey)
    (scan : List Point3) (origin : Point3) (maxrange : ℚ) :
    List OcTreeKey × List OcTreeKey :=
  let cells := computeCells r rayF rayC origin maxrange scan
  (cells.1.filter (fun k => decide (k ∉ cells.2)), cells.2)

/-- Apply a miss update (`probMissLog`) for every key of the list. -/
def applyFree (p : Params) (lazy : Bool) (ks : List OcTreeKey) (t : OTree) :
    OTree :=
  ks.foldl (fun acc k => updR p lazy p.probMissLog k 16 acc) t

/-- Apply a hit update (`probHitLog`) for every key of the list. -/
def applyOcc (p : Params) (lazy : Bool) (ks : List OcTreeKey) (t : OTree) :
    OTree :=
  ks.foldl (fun acc k => updR p lazy p.probHitLog k 16 acc) t

/-- Modelled from the spec (§4.6, `insertScan` of the header): compute the
conflict-resolved key sets, then apply all free updates followed by all
occupied updates. -/
def insertScan (r : ℚ) (p : Params) (rayF : Point3 → Point3 → List OcTreeKey)
    (rayC : Point3 → ℚ → Point3 → List OcTreeKey)
    (scan : List Point3) (origin : Point3) (maxrange : ℚ) (lazy : Bool)
    (t : OTree) : OTree :=
  let cells := computeUpdate r rayF rayC scan origin maxrange
  applyOcc p lazy cells.2 (applyFree p lazy cells.1 t)

/-- Modelled from the spec (`insertRay` of the header): integrate the single
beam from `origin` to `endp` — misses along the ray, the endpoint as
occupied — which is scan integration of the one-point cloud. -/
def insertRay (r : ℚ) (p : Params) (rayF : Point3 → Point3 → List OcTreeKey)
    (rayC : Point3 → ℚ → Point3 → List OcTreeKey)
    (origin endp : Point3) (maxrange : ℚ) (t : OTree) : OTree :=
  insertScan r p rayF rayC [endp] origin maxrange false t

/-- One mutating call on the map: direct `updateNode` by key (with an
arbitrary log-odds delta and `lazy_eval` flag), `insertScan`, or
`insertRay`. -/
inductive MapOp where
  | upd (key : OcTreeKey) (delta : ℚ) (lazy : Bool)
  | scan (cloud : List Point3) (origin : Point3) (maxrange : ℚ) (lazy : Bool)
  | ray (origin endp : Point3) (maxrange : ℚ)

/-- Interpret one map operation. -/
def applyOp (r : ℚ) (p : Params) (rayF : Point3 → Point3 → List OcTreeKey)
    (rayC : Point3 → ℚ → Point3 → List OcTreeKey) :
    MapOp → OTree → OTree
  | .upd key delta lazy, t => updR p lazy delta key 16 t
  | .scan cloud origin maxrange lazy, t =>
    insertScan r p rayF rayC cloud origin maxrange lazy t
  | .ray origin endp maxrange, t =>
    insertRay r p rayF rayC origin endp maxrange t

/-- Interpret a sequence of map operations, oldest first. -/
def applyOps (r : ℚ) (p : Params) (rayF : Point3 → Point3 → List OcTreeKey)
    (rayC : Point3 → ℚ → Point3 → List OcTreeKey)
    (ops : List MapOp) (t : OTree) : OTree :=
  ops.foldl (fun acc op => applyOp r p rayF rayC op acc) t

/-- Modelled from the spec (§4.1/§7, `updateNode(point3d, float, bool)` of
the header): look up the key for the coordinate and update it; the
`OutOfRange` failure of key generation is surfaced to the caller. -/
def updateNodePoint (r : ℚ) (p : Params) (pt : Point3) (delta : ℚ)
    (lazy : Bool) (t : OTree) : Option OTree :=
  match coordToKey3 r pt with
  | none => none
  | some key => some (updR p lazy delta key 16 t)

/-- Modelled from the spec (§4.3, `prune`): full bottom-up pruning to
remaining level `l` — prune all subtrees, then attempt to prune this
node. -/
def pruneAll : Nat → OTree → OTree
  | 0, t => t
  | l + 1, t =>
    pruneNode (.node t.val
      ((t.child 0).map (pruneAll l)) ((t.child 1).map (pruneAll l))
      ((t.child 2).map (pruneAll l)) ((t.child 3).map (pruneAll l))
      ((t.child 4).map (pruneAll l)) ((t.child 5).map (pruneAll l))
      ((t.child 6).map (pruneAll l)) ((t.child 7).map (pruneAll l)))

/-- One 2-bit child-slot code of the binary node encoding (spec §4.8). -/
inductive Slot where
  | absent
  | freeL
  | occL
  | innerM
deriving DecidableEq, Repr

/-- Modelled from the spec (§4.8): the 2-bit code of one child slot —
absent, pruned/leaf free, pruned/leaf occupied, or inner node. -/
def slotOf (p : Params) : Option OTree → Slot
  | none => .absent
  | some c => if c.isLeaf then (if isOccVal p c.val then .occL else .freeL) else .innerM

/-- The encoding contributed by one child slot, with `enc` encoding inner
children: empty for absent children and for leaf children (whose 2-bit
code already captures them). -/
def encChild (enc : OTree → List Slot) (c : Option OTree) : List Slot :=
  c.elim [] fun u => if u.isLeaf then [] else enc u

/-- Modelled from the spec (§4.8, `writeBinaryNode` of the header): a node at
remaining level `l` is written as its eight child-slot codes followed, in
pre-order, by the encodings of its inner children. -/
def encNode (p : Params) : Nat → OTree → List Slot
  | 0, t =>
    [slotOf p (t.child 0), slotOf p (t.child 1), slotOf p (t.child 2),
     slotOf p (t.child 3), slotOf p (t.child 4), slotOf p (t.child 5),
     slotOf p (t.child 6), slotOf p (t.child 7)]
  | l + 1, t =>
    [slotOf p (t.child 0), slotOf p (t.child 1), slotOf p (t.child 2),
     slotOf p (t.child 3), slotOf p (t.child 4), slotOf p (t.child 5),
     slotOf p (t.child 6), slotOf p (t.child 7)] ++
    (encChild (encNode p l) (t.child 0) ++
     (encChild (encNode p l) (t.child 1) ++
      (encChild (encNode p l) (t.child 2) ++
       (encChild (encNode p l) (t.child 3) ++
        (encChild (encNode p l) (t.child 4) ++
         (encChild (encNode p l) (t.child 5) ++
          (encChild (encNode p l) (t.child 6) ++
           encChild (encNode p l) (t.child 7))))))))

/-- Decode one child slot, given the decoder `dec` for inner children:
free and occupied leaves are reconstructed with log-odds
`clampingThresMin` / `clampingThresMax` respectively (spec §4.8). -/
def decChild (p : Params) (dec : List Slot → Option (OTree × List Slot)) :
    Slot → List Slot → Option (Option OTree × List Slot)
  | .absent, rest => some (none, rest)
  | .freeL, rest => some (some (mkLeaf p.clampingThresMin), rest)
  | .occL, rest => some (some (mkLeaf p.clampingThresMax), rest)
  | .innerM, rest =>
    match dec rest with
    | some (t, rest2) => some (some t, rest2)
    | none => none

/-- Modelled from the spec (§4.8, `readBinaryNode` of the header): read the
eight child-slot codes, then recurse for every inner slot.  A stream with
fewer than eight codes, or a truncated inner node, fails (`InvalidFile`).
The decoder reconstructs structure and leaf values; inner and root values
are left at the neutral prior 0.  `fuel` bounds the recursion depth. -/
def decNode (p : Params) : Nat → List Slot → Option (OTree × List Slot)
  | 0, _ => none
  | fuel + 1, s0 :: s1 :: s2 :: s3 :: s4 :: s5 :: s6 :: s7 :: rest => do
    let x0 ← decChild p (decNode p fuel) s0 rest
    let x1 ← decChild p (decNode p fuel) s1 x0.2
    let x2 ← decChild p (decNode p fuel) s2 x1.2
    let x3 ← decChild p (decNode p fuel) s3 x2.2
    let x4 ← decChild p (decNode p fuel) s4 x3.2
    let x5 ← decChild p (decNode p fuel) s5 x4.2
    let x6 ← decChild p (decNode p fuel) s6 x5.2
    let x7 ← decChild p (decNode p fuel) s7 x6.2
    some (.node 0 x0.1 x1.1 x2.1 x3.1 x4.1 x5.1 x6.1 x7.1, x7.2)
  | _ + 1, _ => none

/-- The tree the decoder reproduces from `encNode` at remaining level `l`:
identical structure and leaf values, with the values of this node and of
all inner descendants reset to the neutral prior 0. -/
def scrub : Nat → OTree → OTree
  | 0, t => .node 0 (t.child 0) (t.child 1) (t.child 2) (t.child 3)
      (t.child 4) (t.child 5) (t.child 6) (t.child 7)
  | l + 1, t =>
    .node 0
      ((t.child 0).map (fun c => if c.isLeaf then c else scrub l c))
      ((t.child 1).map (fun c => if c.isLeaf then c else scrub l c))
      ((t.child 2).map (fun c => if c.isLeaf then c else scrub l c))
      ((t.child 3).map (fun c => if c.isLeaf then c else scrub l c))
      ((t.child 4).map (fun c => if c.isLeaf then c else scrub l c))
      ((t.child 5).map (fun c => if c.isLeaf then c else scrub l c))
      ((t.child 6).map (fun c => if c.isLeaf then c else scrub l c))
      ((t.child 7).map (fun c => if c.isLeaf then c else scrub l c))

/-- The finest-depth key of child `i`'s minimal corner, given the parent's
minimal-corner key and the child's remaining level `l`. -/
def childKey (k : OcTreeKey) (l i : Nat) : OcTreeKey :=
  ⟨k.ka + i % 2 * 2 ^ l, k.kb + i / 2 % 2 * 2 ^ l, k.kc + i / 4 % 2 * 2 ^ l⟩

/-- Modelled from the spec (§4.3, leaf enumeration): every leaf of the tree,
with its minimal-corner key at the finest depth and its remaining level,
visited in child order 0..7 (depth-16 key order). -/
def leafList : Nat → OcTreeKey → OTree → List (OcTreeKey × Nat × ℚ)
  | l, k, t =>
    if t.isLeaf then [(k, l, t.val)]
    else
      match l with
      | 0 => [(k, 0, t.val)]
      | l' + 1 =>
        (match t.child 0 with | some c => leafList l' (childKey k l' 0) c | none => []) ++
        (match t.child 1 with | some c => leafList l' (childKey k l' 1) c | none => []) ++
        (match t.child 2 with | some c => leafList l' (childKey k l' 2) c | none => []) ++
        (match t.child 3 with | some c => leafList l' (childKey k l' 3) c | none => []) ++
        (match t.child 4 with | some c => leafList l' (childKey k l' 4) c | none => []) ++
        (match t.child 5 with | some c => leafList l' (childKey k l' 5) c | none => []) ++
        (match t.child 6 with | some c => leafList l' (childKey k l' 6) c | none => []) ++
        (match t.child 7 with | some c => leafList l' (childKey k l' 7) c | none => [])

/-- Modelled from the spec (§4.7, `castRay` of the header), with the ray
voxel enumeration abstracted as the list of `(key, parametric distance)`
pairs the 3D-DDA produces: scan the cells in order; an occupied cell is a
hit; an unknown cell aborts with a miss unless `ignoreUnknown`; a cell
beyond `maxRange` aborts with a miss when `maxRange > 0`. -/
def castRayLoop (p : Params) (t : OTree) (ignore : Bool) (maxRange : ℚ) :
    List (OcTreeKey × ℚ) → Option OcTreeKey
  | [] => none
  | (k, d) :: rest =>
    if 0 < maxRange ∧ maxRange < d then none
    else
      match searchVal k 16 t with
      | none => if ignore then castRayLoop p t ignore maxRange rest else none
      | some v =>
        if isOccVal p v then some k else castRayLoop p t ignore maxRange rest

/-- Modelled from the spec (§4.7): if the origin's voxel is occupied it is
returned as the hit; otherwise the ray cells are scanned in order. -/
def castRay (p : Params) (t : OTree) (originKey : OcTreeKey)
    (cells : List (OcTreeKey × ℚ)) (ignore : Bool) (maxRange : ℚ) :
    Option OcTreeKey :=
  match searchVal originKey 16 t with
  | some v =>
    if isOccVal p v then some originKey
    else castRayLoop p t ignore maxRange cells
  | none => castRayLoop p t ignore maxRange cells

/-- A binary map stream: whether the header (version tag and resolution)
parses, and the node codes that follow (spec §4.8). -/
structure BinFile where
  headerOk : Bool
  slots : List Slot

/-- Modelled from the spec (§4.8/§7) and the header's documentation of
`readBinary` ("Existing nodes of the tree are deleted before the tree is
read"): the old tree is discarded, the stream is parsed, and a parse
failure (bad header, truncated bytes, truncated inner node, trailing
data) leaves the cleared tree, not the pre-read one. -/
def readBinary (p : Params) (_old : OTree) (f : BinFile) (fuel : Nat) :
    Bool × OTree :=
  if f.headerOk then
    match decNode p fuel f.slots with
    | some (t, []) => (true, t)
    | _ => (false, newNode)
  else (false, newNode)

/-- Example parameters for concrete evaluations: clamp `[-2, 2]`, hit `1`,
miss `-1`, occupancy threshold `0` (log-odds units). -/
def pEx : Params := ⟨-2, 2, 1, -1, 0⟩

/-- Example tree: child 0 is a free leaf (`-2`), child 1 an occupied leaf
(`2`). -/
def treeEx : OTree :=
  .node 0 (some (mkLeaf (-2))) (some (mkLeaf 2)) none none none none none none

/-- A key descending into child 0 of the root. -/
def keyLow : OcTreeKey := ⟨0, 0, 0⟩

/-- A key descending into child 1 of the root. -/
def keyHigh : OcTreeKey := ⟨32768, 0, 0⟩

theorem eqb_iff (x y : OcTreeKey) :
    OcTreeKey.eqb x y = true ↔ x.ka = y.ka ∧ x.kb = y.kb ∧ x.kc = y.kc := by
  unfold OcTreeKey.eqb
  split <;> simp_all <;> tauto

/-- Claim C9: `OcTreeKey::operator[]` accesses the three-element array `k`
with no bounds check; the total embedding returns an `Option`, which is
`some` exactly on the in-bounds indices `i < 3`. -/
theorem claim_C9 :
    (∀ (key : OcTreeKey) (i : Nat), i < 3 → (key.get? i).isSome = true) ∧
    (∀ (key : OcTreeKey) (i : Nat), 3 ≤ i → key.get? i = none) := by
  constructor
  · intro key i h
    rcases i with _|_|_|i <;> simp [OcTreeKey.get?] <;> omega
  · intro key i h
    rcases i with _|_|_|i <;> simp [OcTreeKey.get?] <;> omega

theorem claim_C9_w : (OcTreeKey.get? ⟨1, 2, 3⟩ 2).isSome = true :=
  claim_C9.1 ⟨1, 2, 3⟩ 2 (by decide)

/-- Claim C10: `OcTreeKey::operator==` decides componentwise equality of the
three 16-bit components, and is reflexive, symmetric, and transitive. -/
theorem claim_C10 : ∀ x y z : OcTreeKey,
    (OcTreeKey.eqb x y = true ↔ x.ka = y.ka ∧ x.kb = y.kb ∧ x.kc = y.kc) ∧
    OcTreeKey.eqb x x = true ∧
    OcTreeKey.eqb x y = OcTreeKey.eqb y x ∧
    (OcTreeKey.eqb x y = true → OcTreeKey.eqb y z = true →
      OcTreeKey.eqb x z = true) := by
  intro x y z
  refine ⟨eqb_iff x y, (eqb_iff x x).mpr ⟨rfl, rfl, rfl⟩, ?_, ?_⟩
  · rcases hb : OcTreeKey.eqb x y with _ | _ <;>
      rcases hb' : OcTreeKey.eqb y x with _ | _
    · rfl
    · obtain ⟨h1, h2, h3⟩ := (eqb_iff y x).mp hb'
      rw [(eqb_iff x y).mpr ⟨h1.symm, h2.symm, h3.symm⟩] at hb
      exact hb.symm
    · obtain ⟨h1, h2, h3⟩ := (eqb_iff x y).mp hb
      rw [(eqb_iff y x).mpr ⟨h1.symm, h2.symm, h3.symm⟩] at hb'
      exact hb'
    · rfl
  · intro h1 h2
    obtain ⟨a1, b1, c1⟩ := (eqb_iff x y).mp h1
    obtain ⟨a2, b2, c2⟩ := (eqb_iff y z).mp h2
    exact (eqb_iff x z).mpr ⟨a1.trans a2, b1.trans b2, c1.trans c2⟩

theorem claim_C10_w : OcTreeKey.eqb ⟨4, 5, 6⟩ ⟨4, 5, 6⟩ = true :=
  (claim_C10 ⟨4, 5, 6⟩ ⟨4, 5, 6⟩ ⟨4, 5, 6⟩).2.1

theorem coordToKeyQ_none_iff (r c : ℚ) (hr : 0 < r) :
    coordToKeyQ r c = none ↔ ¬(-(r * 2 ^ 15) ≤ c ∧ c < r * 2 ^ 15) := by
  have h1 : (0 : ℤ) ≤ ⌊c / r⌋ + 32768 ↔ -(r * 2 ^ 15) ≤ c := by
    rw [show (0 : ℤ) ≤ ⌊c / r⌋ + 32768 ↔ (-32768 : ℤ) ≤ ⌊c / r⌋ by omega]
    rw [Int.le_floor, le_div_iff₀ hr]
    constructor <;> intro h <;> push_cast at h ⊢ <;> nlinarith
  have h2 : ⌊c / r⌋ + 32768 < 65536 ↔ c < r * 2 ^ 15 := by
    rw [show ⌊c / r⌋ + 32768 < 65536 ↔ ⌊c / r⌋ < (32768 : ℤ) by omega]
    rw [Int.floor_lt, div_lt_iff₀ hr]
    constructor <;> intro h <;> push_cast at h ⊢ <;> nlinarith
  unfold coordToKeyQ
  split
  · rename_i hin
    simp only [reduceCtorEq, false_iff, not_not]
    rw [h1, h2] at hin
    exact hin
  · rename_i hin
    simp only [true_iff]
    rw [h1, h2] at hin
    tauto

theorem coordToKeyQ_some_clamp (r c : ℚ) (k : Nat)
    (h : coordToKeyQ r c = some k) :
    (k : ℤ) = max 0 (min (⌊c / r⌋ + 2 ^ 15) (2 ^ 16 - 1)) := by
  unfold coordToKeyQ at h
  split at h
  · rename_i hin
    have hk : k = (⌊c / r⌋ + 32768).toNat := by
      exact (Option.some.injEq _ _).mp h.symm
    subst hk
    rw [Int.toNat_of_nonneg hin.1]
    omega
  · simp at h

theorem computeCells_skip (r : ℚ) (rayF : Point3 → Point3 → List OcTreeKey)
    (rayC : Point3 → ℚ → Point3 → List OcTreeKey) (origin pbad : Point3)
    (maxrange : ℚ) (hin : inRangeB maxrange origin pbad = true)
    (hbad : coordToKey3 r pbad = none) :
    ∀ scan1 scan2 : List Point3,
      computeCells r rayF rayC origin maxrange (scan1 ++ pbad :: scan2) =
      computeCells r rayF rayC origin maxrange (scan1 ++ scan2) := by
  intro scan1 scan2
  induction scan1 with
  | nil => simp [computeCells, hin, hbad]
  | cons p ps ih =>
    simp only [List.cons_append, computeCells, List.append_eq, ih]

/-- Claim C6: `coord_to_key` succeeds with the clamped key exactly on
coordinates inside `[-r·2^15, r·2^15)`; the `OutOfRange` failure is
surfaced by point-indexed `updateNode`, while scan integration silently
skips the offending endpoint without aborting the scan. -/
theorem claim_C6 (r : ℚ) (hr : 0 < r) : ∀ c : ℚ,
    (coordToKeyQ r c = none ↔ ¬(-(r * 2 ^ 15) ≤ c ∧ c < r * 2 ^ 15)) ∧
    (∀ k : Nat, coordToKeyQ r c = some k →
      (k : ℤ) = max 0 (min (⌊c / r⌋ + 2 ^ 15) (2 ^ 16 - 1))) ∧
    (∀ (p : Params) (pt : Point3) (delta : ℚ) (lazy : Bool) (t : OTree),
      updateNodePoint r p pt delta lazy t = none ↔ coordToKey3 r pt = none) ∧
    (∀ (rayF : Point3 → Point3 → List OcTreeKey)
       (rayC : Point3 → ℚ → Point3 → List OcTreeKey)
       (origin pbad : Point3) (maxrange : ℚ) (scan1 scan2 : List Point3),
      inRangeB maxrange origin pbad = true → coordToKey3 r pbad = none →
      computeUpdate r rayF rayC (scan1 ++ pbad :: scan2) origin maxrange =
      computeUpdate r rayF rayC (scan1 ++ scan2) origin maxrange) := by
  intro c
  refine ⟨coordToKeyQ_none_iff r c hr, coordToKeyQ_some_clamp r c, ?_, ?_⟩
  · intro p pt delta lazy t
    unfold updateNodePoint
    rcases h : coordToKey3 r pt with _ | k <;> simp
  · intro rayF rayC origin pbad maxrange scan1 scan2 hin hbad
    unfold computeUpdate
    rw [computeCells_skip r rayF rayC origin pbad maxrange hin hbad]

theorem claim_C6_w :
    coordToKeyQ 1 0 = none ↔ ¬(-((1 : ℚ) * 2 ^ 15) ≤ 0 ∧ (0 : ℚ) < 1 * 2 ^ 15) :=
  (claim_C6 1 (by norm_num) 0).1

/-- Endpoint keys of in-range scan points are collected as occupied. -/
theorem computeCells_endpoint (r : ℚ) (rayF : Point3 → Point3 → List OcTreeKey)
    (rayC : Point3 → ℚ → Point3 → List OcTreeKey) (origin : Point3)
    (maxrange : ℚ) (k : OcTreeKey) :
    ∀ (scan : List Point3) (pt : Point3), pt ∈ scan →
      inRangeB maxrange origin pt = true → coordToKey3 r pt = some k →
      k ∈ (computeCells r rayF rayC origin maxrange scan).2 := by
  intro scan
  induction scan with
  | nil => intro pt h; simp at h
  | cons p ps ih =>
    intro pt hmem hin hk
    rcases List.mem_cons.mp hmem with h | h
    · subst h
      simp only [computeCells, hin, if_true, hk]
      exact List.mem_cons_self _ _
    · have hrec := ih pt h hin hk
      simp only [computeCells]
      split
      · rcases hck : coordToKey3 r p with _ | k' <;> simp [hrec]
      · simpa using hrec

/-- Claim C2: after `computeUpdate`, free and occupied key sets are disjoint
(occupied wins), and every in-range endpoint's key is in the occupied
set, hence receives the occupied update in `insertScan`. -/
theorem claim_C2 (r : ℚ) (p : Params) (rayF : Point3 → Point3 → List OcTreeKey)
    (rayC : Point3 → ℚ → Point3 → List OcTreeKey)
    (scan : List Point3) (origin : Point3) (maxrange : ℚ) (lazy : Bool) :
    (∀ k : OcTreeKey,
      k ∈ (computeUpdate r rayF rayC scan origin maxrange).2 →
      k ∉ (computeUpdate r rayF rayC scan origin maxrange).1) ∧
    (∀ (pt : Point3) (k : OcTreeKey), pt ∈ scan →
      inRangeB maxrange origin pt = true → coordToKey3 r pt = some k →
      k ∈ (computeUpdate r rayF rayC scan origin maxrange).2) ∧
    insertScan r p rayF rayC scan origin maxrange lazy =
      fun t => applyOcc p lazy (computeUpdate r rayF rayC scan origin maxrange).2
        (applyFree p lazy (computeUpdate r rayF rayC scan origin maxrange).1 t) := by
  refine ⟨?_, ?_, rfl⟩
  · intro k hocc hfree
    unfold computeUpdate at hocc hfree
    have := List.of_mem_filter hfree
    simp only [decide_eq_true_eq] at this
    exact this hocc
  · intro pt k hmem hin hk
    unfold computeUpdate
    exact computeCells_endpoint r rayF rayC origin maxrange k scan pt hmem hin hk

theorem claim_C2_w :
    (⟨32768, 32768, 32768⟩ : OcTreeKey) ∈
      (computeUpdate 1 (fun _ _ => []) (fun _ _ _ => []) [⟨0, 0, 0⟩] ⟨0, 0, 0⟩
        (-1)).2 :=
  (claim_C2 1 pEx (fun _ _ => []) (fun _ _ _ => []) [⟨0, 0, 0⟩] ⟨0, 0, 0⟩ (-1)
    false).2.1 ⟨0, 0, 0⟩ ⟨32768, 32768, 32768⟩ (by simp) (by decide)
    (by simp [coordToKey3, coordToKeyQ])


theorem castRayLoop_mono (p : Params) (t : OTree) (ignore : Bool)
    (R1 R2 : ℚ) (hR1 : 0 < R1) (hR12 : R1 < R2) (k : OcTreeKey) :
    ∀ cells : List (OcTreeKey × ℚ),
      castRayLoop p t ignore R1 cells = some k →
      castRayLoop p t ignore R2 cells = some k := by
  intro cells
  induction cells with
  | nil => intro h; simp [castRayLoop] at h
  | cons cell rest ih =>
    intro h
    obtain ⟨k', d⟩ := cell
    by_cases hc : 0 < R1 ∧ R1 < d
    · rw [castRayLoop, if_pos hc] at h
      exact absurd h (by simp)
    · have hd : d ≤ R1 := by
        rcases not_and_or.mp hc with h' | h'
        · exact absurd hR1 h'
        · exact le_of_not_lt h'
      have hc2 : ¬(0 < R2 ∧ R2 < d) := by
        intro hx
        linarith [hx.2]
      rw [castRayLoop, if_neg hc] at h
      rw [castRayLoop, if_neg hc2]
      rcases hs : searchVal k' 16 t with _ | v <;> simp only [hs] at h ⊢
      · cases ignore with
        | false => simp at h
        | true =>
          simp only [if_true] at h ⊢
          exact ih h
      · by_cases ho : isOccVal p v = true
        · rw [if_pos ho] at h ⊢
          exact h
        · rw [if_neg ho] at h ⊢
          exact ih h

/-- Claim C8 (amended): for positive maximum ranges `0 < R1 < R2`, a hit
with range `R1` is reproduced identically with range `R2` — the same cell
is hit, so the hit point is no farther from the origin. -/
theorem claim_C8 (p : Params) (t : OTree) (originKey : OcTreeKey)
    (cells : List (OcTreeKey × ℚ)) (ignore : Bool) (R1 R2 : ℚ) (k : OcTreeKey)
    (hR1 : 0 < R1) (hR12 : R1 < R2)
    (h : castRay p t originKey cells ignore R1 = some k) :
    castRay p t originKey cells ignore R2 = some k := by
  unfold castRay at h ⊢
  rcases hs : searchVal originKey 16 t with _ | v <;> simp only [hs] at h ⊢
  · exact castRayLoop_mono p t ignore R1 R2 hR1 hR12 k cells h
  · by_cases ho : isOccVal p v = true
    · rw [if_pos ho] at h ⊢
      exact h
    · rw [if_neg ho] at h ⊢
      exact castRayLoop_mono p t ignore R1 R2 hR1 hR12 k cells h

theorem claim_C8_w :
    castRay pEx treeEx keyLow [(keyHigh, 3)] false 7 = some keyHigh :=
  claim_C8 pEx treeEx keyLow [(keyHigh, 3)] false 5 7 keyHigh (by norm_num)
    (by norm_num) (by decide)

/-- Claim C8, original form, refuted: with the unlimited range `R1 = -1` the
cast hits the occupied cell at parametric distance 3, but the larger range
`R2 = 1 > R1` is a positive limit below the hit distance, so the cast
misses — raycast monotonicity fails when `R1` is a no-limit value. -/
theorem claim_C8_cex :
    castRay pEx treeEx keyLow [(keyHigh, 3)] false (-1) = some keyHigh ∧
    castRay pEx treeEx keyLow [(keyHigh, 3)] false 1 = none ∧
    ((-1 : ℚ) < 1) :=
  ⟨by decide, by decide, by norm_num⟩


/-- Claim C7 (amended): `readBinary` deletes the existing nodes before the
tree is read, so on any failure the tree afterwards is the cleared tree,
not the pre-read one. -/
theorem claim_C7 (p : Params) (t : OTree) (f : BinFile) (fuel : Nat)
    (h : (readBinary p t f fuel).1 = false) :
    (readBinary p t f fuel).2 = newNode := by
  unfold readBinary at h ⊢
  rcases hh : f.headerOk <;> simp only [hh] at h ⊢
  · rfl
  · rcases hd : decNode p fuel f.slots with _ | pr <;> simp only [hd] at h ⊢
    · rfl
    · obtain ⟨t', rest⟩ := pr
      rcases rest with _ | ⟨s, rest⟩
      · simp at h
      · rfl

theorem claim_C7_w : (readBinary pEx treeEx ⟨true, []⟩ 16).2 = newNode :=
  claim_C7 pEx treeEx ⟨true, []⟩ 16 (by decide)

/-- Claim C7, original form, refuted: a tree holding an occupied leaf, read
against a truncated stream, fails — and the tree afterwards is the cleared
tree, which differs from the pre-read state. -/
theorem claim_C7_cex :
    readBinary pEx treeEx ⟨true, []⟩ 16 = (false, newNode) ∧
    newNode ≠ treeEx := by
  constructor
  · rfl
  · intro h
    have h0 := congrArg (fun u => OTree.child u 0) h
    simp [newNode, treeEx, OTree.child] at h0


theorem mlVal_idem (p : Params) (h1 : p.occProbThresLog ≤ p.clampingThresMax)
    (h2 : p.clampingThresMin < p.occProbThresLog) (w : ℚ) :
    mlVal p (mlVal p w) = mlVal p w := by
  unfold mlVal
  by_cases hw : p.occProbThresLog ≤ w
  · rw [if_pos hw, if_pos h1]
  · rw [if_neg hw, if_neg (not_le.mpr h2)]

theorem atThresholdVal_mlVal (p : Params) (w : ℚ) :
    atThresholdVal p (mlVal p w) = true := by
  unfold mlVal atThresholdVal
  split <;> simp

theorem ml_val (p : Params) (l : Nat) (t : OTree) :
    (toMaxLikelihood p l t).val = mlVal p t.val := by
  cases l <;> rfl

theorem ml_unfold_succ (p : Params) (l : Nat) (t : OTree) :
    toMaxLikelihood p (l + 1) t =
      OTree.node (mlVal p t.val)
        ((t.child 0).map (toMaxLikelihood p l))
        ((t.child 1).map (toMaxLikelihood p l))
        ((t.child 2).map (toMaxLikelihood p l))
        ((t.child 3).map (toMaxLikelihood p l))
        ((t.child 4).map (toMaxLikelihood p l))
        ((t.child 5).map (toMaxLikelihood p l))
        ((t.child 6).map (toMaxLikelihood p l))
        ((t.child 7).map (toMaxLikelihood p l)) := by
  rw [toMaxLikelihood]

theorem ml_idem (p : Params) (h1 : p.occProbThresLog ≤ p.clampingThresMax)
    (h2 : p.clampingThresMin < p.occProbThresLog) :
    ∀ (l : Nat) (t : OTree),
      toMaxLikelihood p l (toMaxLikelihood p l t) = toMaxLikelihood p l t := by
  intro l
  induction l with
  | zero =>
    intro t
    rw [toMaxLikelihood, toMaxLikelihood]
    simp only [OTree.val, OTree.child]
    rw [mlVal_idem p h1 h2]
  | succ l ih =>
    intro t
    rw [ml_unfold_succ, ml_unfold_succ]
    simp only [OTree.val, OTree.child]
    rw [mlVal_idem p h1 h2]
    congr 1 <;>
      (rw [Option.map_map]
       apply Option.map_congr
       intro u _
       simp only [Function.comp_apply]
       exact ih u)

theorem child_eq_none_of_isLeaf (t : OTree) (h : t.isLeaf = true) (i : Nat) :
    t.child i = none := by
  obtain ⟨v, c0, c1, c2, c3, c4, c5, c6, c7⟩ := t
  simp only [OTree.isLeaf, Bool.and_eq_true, Option.isNone_iff_eq_none] at h
  obtain ⟨⟨⟨⟨⟨⟨⟨h0, h1⟩, h2⟩, h3⟩, h4⟩, h5⟩, h6⟩, h7⟩ := h
  subst h0 h1 h2 h3 h4 h5 h6 h7
  rcases i with _|_|_|_|_|_|_|_|i <;> rfl

theorem isLeaf_false_of_child (t : OTree) (i : Nat) (u : OTree)
    (hc : t.child i = some u) : t.isLeaf = false := by
  rcases hl : t.isLeaf with _ | _
  · rfl
  · rw [child_eq_none_of_isLeaf t hl i] at hc
    exact absurd hc (by simp)

theorem leafVals_mem_cases (l : Nat) (t : OTree) (v' : ℚ)
    (h : v' ∈ leafVals (l + 1) t) :
    (t.isLeaf = true ∧ v' = t.val) ∨
      ∃ i u, i < 8 ∧ t.child i = some u ∧ v' ∈ leafVals l u := by
  rw [leafVals] at h
  by_cases hl : t.isLeaf = true
  · rw [if_pos hl] at h
    left
    exact ⟨hl, by simpa using h⟩
  · rw [if_neg hl] at h
    right
    simp only [List.mem_append] at h
    rcases h with h | h | h | h | h | h | h | h
    · rcases hc : t.child 0 with _ | u <;> rw [hc] at h <;> simp at h
      · exact ⟨0, u, by omega, hc, h⟩
    · rcases hc : t.child 1 with _ | u <;> rw [hc] at h <;> simp at h
      · exact ⟨1, u, by omega, hc, h⟩
    · rcases hc : t.child 2 with _ | u <;> rw [hc] at h <;> simp at h
      · exact ⟨2, u, by omega, hc, h⟩
    · rcases hc : t.child 3 with _ | u <;> rw [hc] at h <;> simp at h
      · exact ⟨3, u, by omega, hc, h⟩
    · rcases hc : t.child 4 with _ | u <;> rw [hc] at h <;> simp at h
      · exact ⟨4, u, by omega, hc, h⟩
    · rcases hc : t.child 5 with _ | u <;> rw [hc] at h <;> simp at h
      · exact ⟨5, u, by omega, hc, h⟩
    · rcases hc : t.child 6 with _ | u <;> rw [hc] at h <;> simp at h
      · exact ⟨6, u, by omega, hc, h⟩
    · rcases hc : t.child 7 with _ | u <;> rw [hc] at h <;> simp at h
      · exact ⟨7, u, by omega, hc, h⟩

theorem leafVals_of_child (l i : Nat) (t u : OTree) (hi : i < 8)
    (hc : t.child i = some u) (v' : ℚ) (h : v' ∈ leafVals l u) :
    v' ∈ leafVals (l + 1) t := by
  rw [leafVals, if_neg (by rw [isLeaf_false_of_child t i u hc]; simp)]
  rcases i with _|_|_|_|_|_|_|_|i <;> simp [List.mem_append, hc] <;> tauto

theorem ml_child_succ (p : Params) (l : Nat) (t : OTree) (i : Nat) (hi : i < 8) :
    (toMaxLikelihood p (l + 1) t).child i =
      (t.child i).map (toMaxLikelihood p l) := by
  rw [ml_unfold_succ]
  rcases i with _|_|_|_|_|_|_|_|i <;> first | rfl | omega

theorem ml_atThres (p : Params) : ∀ (l : Nat) (t : OTree) (v' : ℚ),
    v' ∈ leafVals l (toMaxLikelihood p l t) → atThresholdVal p v' = true := by
  intro l
  induction l with
  | zero =>
    intro t v' h
    rw [leafVals] at h
    have : v' = (toMaxLikelihood p 0 t).val := by simpa using h
    rw [this, ml_val]
    exact atThresholdVal_mlVal p t.val
  | succ l ih =>
    intro t v' h
    rcases leafVals_mem_cases l _ v' h with ⟨_, h'⟩ | ⟨i, u, hi, hc, hm⟩
    · rw [h', ml_val]
      exact atThresholdVal_mlVal p t.val
    · rw [ml_child_succ p l t i hi] at hc
      rcases Option.map_eq_some'.mp hc with ⟨u0, hu0, rfl⟩
      exact ih u0 v' hm

/-- Claim C5: `toMaxLikelihood` is idempotent under the parameter constraints
`clampingThresMin < occProbThresLog ≤ clampingThresMax`, and after one
application every leaf is at a clamping threshold. -/
theorem claim_C5 (p : Params) (h1 : p.occProbThresLog ≤ p.clampingThresMax)
    (h2 : p.clampingThresMin < p.occProbThresLog) (l : Nat) (t : OTree) :
    toMaxLikelihood p l (toMaxLikelihood p l t) = toMaxLikelihood p l t ∧
    ∀ v' ∈ leafVals l (toMaxLikelihood p l t), atThresholdVal p v' = true :=
  ⟨ml_idem p h1 h2 l t, fun v' h => ml_atThres p l t v' h⟩

theorem claim_C5_w :
    toMaxLikelihood pEx 16 (toMaxLikelihood pEx 16 treeEx) =
      toMaxLikelihood pEx 16 treeEx :=
  (claim_C5 pEx (by norm_num [pEx]) (by norm_num [pEx]) 16 treeEx).1


theorem child_setChild_self (t : OTree) (i : Nat) (h : i < 8) (c : Option OTree) :
    (t.setChild i c).child i = c := by
  cases t
  rcases i with _|_|_|_|_|_|_|_|i <;> simp [OTree.setChild, OTree.child] <;> omega

theorem child_setChild_other (t : OTree) (i j : Nat) (h : i ≠ j) (c : Option OTree) :
    (t.setChild i c).child j = t.child j := by
  cases t
  rcases i with _|_|_|_|_|_|_|_|i <;> rcases j with _|_|_|_|_|_|_|_|j <;>
    simp_all [OTree.setChild, OTree.child]

theorem isLeaf_setChild_some (t : OTree) (i : Nat) (h : i < 8) (c : OTree) :
    (t.setChild i (some c)).isLeaf = false := by
  cases t
  rcases i with _|_|_|_|_|_|_|_|i <;>
    simp [OTree.setChild, OTree.isLeaf] <;> omega

theorem childIdx_lt (key : OcTreeKey) (b : Nat) : childIdx key b < 8 := by
  have h1 : keyBit key.ka b < 2 := Nat.mod_lt _ (by norm_num)
  have h2 : keyBit key.kb b < 2 := Nat.mod_lt _ (by norm_num)
  have h3 : keyBit key.kc b < 2 := Nat.mod_lt _ (by norm_num)
  unfold childIdx
  omega

theorem clampVal_range (p : Params)
    (h : p.clampingThresMin ≤ p.clampingThresMax) (x : ℚ) :
    p.clampingThresMin ≤ clampVal p x ∧ clampVal p x ≤ p.clampingThresMax := by
  unfold clampVal
  constructor
  · exact le_max_left _ _
  · rw [max_le_iff]
    exact ⟨h, min_le_right _ _⟩

theorem leafVals_mkLeaf (l : Nat) (w : ℚ) : leafVals l (mkLeaf w) = [w] := by
  cases l with
  | zero => rfl
  | succ l =>
    rw [leafVals, if_pos (by rfl)]
    rfl

theorem leafVal?_eq_some (c : Option OTree) (w : ℚ)
    (h : leafVal? c = some w) : c = some (mkLeaf w) := by
  unfold leafVal? at h
  split at h
  · rename_i w'
    obtain rfl : w' = w := by simpa using h
    rfl
  · exact absurd h (by simp)

theorem prunableVal_child0 (t : OTree) (w : ℚ)
    (h : prunableVal t = some w) : t.child 0 = some (mkLeaf w) := by
  unfold prunableVal at h
  rcases hl : leafVal? (t.child 0) with _ | w0 <;> rw [hl] at h
  · exact absurd h (by simp)
  · simp only [Option.some_bind] at h
    split at h
    · obtain rfl : w0 = w := by simpa using h
      exact leafVal?_eq_some _ _ hl
    · exact absurd h (by simp)

theorem leafVals_pruneNode (l : Nat) (t : OTree) (v' : ℚ)
    (h : v' ∈ leafVals (l + 1) (pruneNode t)) : v' ∈ leafVals (l + 1) t := by
  unfold pruneNode at h
  rcases hp : prunableVal t with _ | w <;> rw [hp] at h
  · exact h
  · rw [leafVals_mkLeaf] at h
    obtain rfl : v' = w := by simpa using h
    exact leafVals_of_child l 0 t (mkLeaf v') (by omega) (prunableVal_child0 t v' hp)
      v' (by rw [leafVals_mkLeaf]; simp)

theorem updR_zero (p : Params) (lazy : Bool) (delta : ℚ) (key : OcTreeKey)
    (t : OTree) : updR p lazy delta key 0 t = updateNodeLogOdds p t delta := by
  rw [updR]

theorem updR_succ (p : Params) (lazy : Bool) (delta : ℚ) (key : OcTreeKey)
    (l : Nat) (t : OTree) :
    updR p lazy delta key (l + 1) t =
      (fun t2 => if lazy then t2 else pruneNode t2)
        (t.setChild (childIdx key l)
          (some (updR p lazy delta key l
            ((t.child (childIdx key l)).getD newNode)))) := by
  rw [updR]

theorem val_updateNodeLogOdds (p : Params) (t : OTree) (delta : ℚ) :
    (updateNodeLogOdds p t delta).val = clampVal p (t.val + delta) := by
  cases t
  rfl

theorem child_updateNodeLogOdds (p : Params) (t : OTree) (delta : ℚ) (i : Nat) :
    (updateNodeLogOdds p t delta).child i = t.child i := by
  cases t
  rcases i with _|_|_|_|_|_|_|_|i <;> rfl

theorem isLeaf_updateNodeLogOdds (p : Params) (t : OTree) (delta : ℚ) :
    (updateNodeLogOdds p t delta).isLeaf = t.isLeaf := by
  cases t
  rfl

theorem updR_newNode_leafVals (p : Params) (lazy : Bool) (delta : ℚ)
    (key : OcTreeKey) : ∀ (l : Nat) (v' : ℚ),
    v' ∈ leafVals l (updR p lazy delta key l newNode) →
    ∃ x, v' = clampVal p x := by
  intro l
  induction l with
  | zero =>
    intro v' h
    rw [updR_zero, leafVals] at h
    rw [val_updateNodeLogOdds] at h
    exact ⟨(newNode.val + delta), by simpa using h⟩
  | succ l ih =>
    intro v' h
    rw [updR_succ] at h
    simp only at h
    have hi : childIdx key l < 8 := childIdx_lt key l
    have h2 : v' ∈ leafVals (l + 1)
        (newNode.setChild (childIdx key l)
          (some (updR p lazy delta key l
            ((newNode.child (childIdx key l)).getD newNode)))) := by
      rcases lazy with _ | _
      · simp only [if_neg Bool.false_ne_true] at h
        exact leafVals_pruneNode l _ v' h
      · simpa using h
    rcases leafVals_mem_cases l _ v' h2 with ⟨hlf, _⟩ | ⟨j, u, hj, hcj, hm⟩
    · rw [isLeaf_setChild_some _ _ hi _] at hlf
      exact absurd hlf (by simp)
    · by_cases hij : childIdx key l = j
      · subst hij
        rw [child_setChild_self _ _ hi] at hcj
        obtain rfl : u = updR p lazy delta key l
            ((newNode.child (childIdx key l)).getD newNode) := by
          simpa using hcj.symm
        have : (newNode.child (childIdx key l)).getD newNode = newNode := by
          rcases childIdx key l with _|_|_|_|_|_|_|_|m <;> rfl
        rw [this] at hm
        exact ih v' hm
      · rw [child_setChild_other _ _ _ hij] at hcj
        have : newNode.child j = none := by
          rcases j with _|_|_|_|_|_|_|_|m <;> rfl
        rw [this] at hcj
        exact absurd hcj (by simp)

theorem updR_leafVals (p : Params) (lazy : Bool) (delta : ℚ) (key : OcTreeKey) :
    ∀ (l : Nat) (t : OTree) (v' : ℚ),
    v' ∈ leafVals l (updR p lazy delta key l t) →
    v' ∈ leafVals l t ∨ ∃ x, v' = clampVal p x := by
  intro l
  induction l with
  | zero =>
    intro t v' h
    rw [updR_zero, leafVals, val_updateNodeLogOdds] at h
    exact Or.inr ⟨t.val + delta, by simpa using h⟩
  | succ l ih =>
    intro t v' h
    rw [updR_succ] at h
    simp only at h
    have hi : childIdx key l < 8 := childIdx_lt key l
    have h2 : v' ∈ leafVals (l + 1)
        (t.setChild (childIdx key l)
          (some (updR p lazy delta key l
            ((t.child (childIdx key l)).getD newNode)))) := by
      rcases lazy with _ | _
      · simp only [if_neg Bool.false_ne_true] at h
        exact leafVals_pruneNode l _ v' h
      · simpa using h
    rcases leafVals_mem_cases l _ v' h2 with ⟨hlf, _⟩ | ⟨j, u, hj, hcj, hm⟩
    · rw [isLeaf_setChild_some _ _ hi _] at hlf
      exact absurd hlf (by simp)
    · by_cases hij : childIdx key l = j
      · subst hij
        rw [child_setChild_self _ _ hi] at hcj
        obtain rfl : u = updR p lazy delta key l
            ((t.child (childIdx key l)).getD newNode) := by
          simpa using hcj.symm
        rcases hc : t.child (childIdx key l) with _ | c
        · rw [hc] at hm
          simp only [Option.getD_none] at hm
          exact Or.inr (updR_newNode_leafVals p lazy delta key l v' hm)
        · rw [hc] at hm
          simp only [Option.getD_some] at hm
          rcases ih c v' hm with hin | hcl
          · exact Or.inl (leafVals_of_child l _ t c hi hc v' hin)
          · exact Or.inr hcl
      · rw [child_setChild_other _ _ _ hij] at hcj
        exact Or.inl (leafVals_of_child l j t u hj hcj v' hm)

theorem foldl_preserve {α : Type} (P : OTree → Prop) (f : OTree → α → OTree)
    (hf : ∀ (a : α) (t : OTree), P t → P (f t a)) :
    ∀ (xs : List α) (t : OTree), P t → P (List.foldl f t xs) := by
  intro xs
  induction xs with
  | nil => intro t h; exact h
  | cons x xs ih =>
    intro t h
    exact ih (f t x) (hf x t h)

theorem updR16_preserves (p : Params)
    (hm : p.clampingThresMin ≤ p.clampingThresMax) (lazy : Bool) (delta : ℚ)
    (key : OcTreeKey) (t : OTree)
    (ht : ∀ v' ∈ leafVals 16 t,
      p.clampingThresMin ≤ v' ∧ v' ≤ p.clampingThresMax) :
    ∀ v' ∈ leafVals 16 (updR p lazy delta key 16 t),
      p.clampingThresMin ≤ v' ∧ v' ≤ p.clampingThresMax := by
  intro v' h
  rcases updR_leafVals p lazy delta key 16 t v' h with hin | ⟨x, rfl⟩
  · exact ht v' hin
  · exact clampVal_range p hm x

theorem applyOp_preserves (r : ℚ) (p : Params)
    (rayF : Point3 → Point3 → List OcTreeKey)
    (rayC : Point3 → ℚ → Point3 → List OcTreeKey)
    (hm : p.clampingThresMin ≤ p.clampingThresMax) (op : MapOp) (t : OTree)
    (ht : ∀ v' ∈ leafVals 16 t,
      p.clampingThresMin ≤ v' ∧ v' ≤ p.clampingThresMax) :
    ∀ v' ∈ leafVals 16 (applyOp r p rayF rayC op t),
      p.clampingThresMin ≤ v' ∧ v' ≤ p.clampingThresMax := by
  have hfold : ∀ (del : ℚ) (lazy : Bool) (ks : List OcTreeKey) (u : OTree),
      (∀ v' ∈ leafVals 16 u,
        p.clampingThresMin ≤ v' ∧ v' ≤ p.clampingThresMax) →
      ∀ v' ∈ leafVals 16
        (ks.foldl (fun acc k => updR p lazy del k 16 acc) u),
        p.clampingThresMin ≤ v' ∧ v' ≤ p.clampingThresMax := by
    intro del lazy ks u hu
    exact foldl_preserve
      (fun w => ∀ v' ∈ leafVals 16 w,
        p.clampingThresMin ≤ v' ∧ v' ≤ p.clampingThresMax)
      (fun acc k => updR p lazy del k 16 acc)
      (fun k w hw => updR16_preserves p hm lazy del k w hw) ks u hu
  cases op with
  | upd key delta lazy => exact updR16_preserves p hm lazy delta key t ht
  | scan cloud origin maxrange lazy =>
    unfold applyOp insertScan applyOcc applyFree
    exact hfold _ _ _ _ (hfold _ _ _ _ ht)
  | ray origin endp maxrange =>
    unfold applyOp insertRay insertScan applyOcc applyFree
    exact hfold _ _ _ _ (hfold _ _ _ _ ht)

/-- Claim C1: with clamping bounds around the neutral prior, every leaf
log-odds value stays in `[clampingThresMin, clampingThresMax]` under any
sequence of `updateNode` / `insertScan` / `insertRay` calls starting from
the fresh tree, and `updateNodeLogOdds` sets the node value to the clamp
of `v + delta`. -/
theorem claim_C1 (r : ℚ) (p : Params)
    (rayF : Point3 → Point3 → List OcTreeKey)
    (rayC : Point3 → ℚ → Point3 → List OcTreeKey)
    (hmin : p.clampingThresMin ≤ 0) (hmax : 0 ≤ p.clampingThresMax)
    (ops : List MapOp) :
    (∀ v' ∈ leafVals 16 (applyOps r p rayF rayC ops newNode),
      p.clampingThresMin ≤ v' ∧ v' ≤ p.clampingThresMax) ∧
    (∀ (t : OTree) (delta : ℚ),
      (updateNodeLogOdds p t delta).val =
        max p.clampingThresMin (min (t.val + delta) p.clampingThresMax)) := by
  constructor
  · unfold applyOps
    apply foldl_preserve
      (fun w => ∀ v' ∈ leafVals 16 w,
        p.clampingThresMin ≤ v' ∧ v' ≤ p.clampingThresMax)
      (fun acc op => applyOp r p rayF rayC op acc)
      (fun op w hw => applyOp_preserves r p rayF rayC (hmin.trans hmax) op w hw)
      ops newNode
    intro v' h
    have : v' = 0 := by
      have hn : leafVals 16 newNode = [0] := leafVals_mkLeaf 16 0
      rw [hn] at h
      simpa using h
    rw [this]
    exact ⟨hmin, hmax⟩
  · intro t delta
    rw [val_updateNodeLogOdds]
    rfl

theorem claim_C1_w :
    (updateNodeLogOdds pEx treeEx 3).val =
      max pEx.clampingThresMin (min (treeEx.val + 3) pEx.clampingThresMax) :=
  (claim_C1 1 pEx (fun _ _ => []) (fun _ _ _ => []) (by norm_num [pEx])
    (by norm_num [pEx]) []).2 treeEx 3


theorem child_ge8 (t : OTree) (i : Nat) (h : 8 ≤ i) : t.child i = none := by
  cases t
  rcases i with _|_|_|_|_|_|_|_|i <;> first | omega | rfl

theorem searchVal_leaf (q : OcTreeKey) (l : Nat) (t : OTree)
    (h : t.isLeaf = true) : searchVal q l t = some t.val := by
  cases l with
  | zero => rfl
  | succ l =>
    rw [searchVal, if_pos h]

theorem depthLE_child (l : Nat) (t : OTree) (hd : depthLE (l + 1) t = true)
    (i : Nat) (c : OTree) (hc : t.child i = some c) : depthLE l c = true := by
  rw [depthLE] at hd
  simp only [Bool.and_eq_true] at hd
  obtain ⟨⟨⟨⟨⟨⟨⟨h0, h1⟩, h2⟩, h3⟩, h4⟩, h5⟩, h6⟩, h7⟩ := hd
  by_cases hbig : 8 ≤ i
  · rw [child_ge8 t i hbig] at hc
    exact absurd hc (by simp)
  · rcases i with _|_|_|_|_|_|_|_|i <;>
      [skip; skip; skip; skip; skip; skip; skip; skip; omega] <;>
      simp_all

theorem depthLE_succ_intro (l : Nat) (t : OTree)
    (h : ∀ i, i < 8 → ∀ c, t.child i = some c → depthLE l c = true) :
    depthLE (l + 1) t = true := by
  rw [depthLE]
  simp only [Bool.and_eq_true]
  refine ⟨⟨⟨⟨⟨⟨⟨?_, ?_⟩, ?_⟩, ?_⟩, ?_⟩, ?_⟩, ?_⟩, ?_⟩ <;>
    [rcases hc : t.child 0 with _ | c;
     rcases hc : t.child 1 with _ | c;
     rcases hc : t.child 2 with _ | c;
     rcases hc : t.child 3 with _ | c;
     rcases hc : t.child 4 with _ | c;
     rcases hc : t.child 5 with _ | c;
     rcases hc : t.child 6 with _ | c;
     rcases hc : t.child 7 with _ | c] <;>
    simp only [Option.elim_none, Option.elim_some] <;>
    first
      | rfl
      | exact h 0 (by omega) c hc
      | exact h 1 (by omega) c hc
      | exact h 2 (by omega) c hc
      | exact h 3 (by omega) c hc
      | exact h 4 (by omega) c hc
      | exact h 5 (by omega) c hc
      | exact h 6 (by omega) c hc
      | exact h 7 (by omega) c hc

theorem depthLE_of_isLeaf (t : OTree) (h : t.isLeaf = true) :
    ∀ l, depthLE l t = true := by
  intro l
  cases l with
  | zero => exact h
  | succ l =>
    exact depthLE_succ_intro l t fun i hi c hc => by
      rw [child_eq_none_of_isLeaf t h i] at hc
      exact absurd hc (by simp)

theorem prunableVal_children (t : OTree) (w : ℚ)
    (h : prunableVal t = some w) :
    ∀ i, i < 8 → t.child i = some (mkLeaf w) := by
  unfold prunableVal at h
  rcases hl : leafVal? (t.child 0) with _ | w0 <;> rw [hl] at h
  · exact absurd h (by simp)
  · simp only [Option.some_bind] at h
    split at h
    · rename_i hcond
      obtain rfl : w0 = w := by simpa using h
      intro i hi
      rcases i with _|_|_|_|_|_|_|_|i
      · exact leafVal?_eq_some _ _ hl
      · exact leafVal?_eq_some _ _ hcond.1
      · exact leafVal?_eq_some _ _ hcond.2.1
      · exact leafVal?_eq_some _ _ hcond.2.2.1
      · exact leafVal?_eq_some _ _ hcond.2.2.2.1
      · exact leafVal?_eq_some _ _ hcond.2.2.2.2.1
      · exact leafVal?_eq_some _ _ hcond.2.2.2.2.2.1
      · exact leafVal?_eq_some _ _ hcond.2.2.2.2.2.2
      · omega
    · exact absurd h (by simp)

theorem isLeaf_mkLeaf (w : ℚ) : (mkLeaf w).isLeaf = true := rfl

theorem val_mkLeaf (w : ℚ) : (mkLeaf w).val = w := rfl

theorem searchVal_pruneNode (q : OcTreeKey) (l : Nat) (t : OTree) :
    searchVal q (l + 1) (pruneNode t) = searchVal q (l + 1) t := by
  unfold pruneNode
  rcases hp : prunableVal t with _ | w
  · rfl
  · have hch := prunableVal_children t w hp
    have hnl : t.isLeaf = false :=
      isLeaf_false_of_child t 0 (mkLeaf w) (hch 0 (by omega))
    rw [searchVal_leaf q (l + 1) (mkLeaf w) (isLeaf_mkLeaf w), val_mkLeaf]
    rw [searchVal, if_neg (by rw [hnl]; simp)]
    rw [hch (childIdx q l) (childIdx_lt q l)]
    simp [searchVal_leaf q l (mkLeaf w) (isLeaf_mkLeaf w), val_mkLeaf]

theorem updateInner_child (l : Nat) (t : OTree) (i : Nat) (hi : i < 8) :
    (updateInner (l + 1) t).child i = (t.child i).map (updateInner l) := by
  rw [updateInner]
  rcases i with _|_|_|_|_|_|_|_|i <;> first | rfl | omega

theorem isNone_map (f : OTree → OTree) (c : Option OTree) :
    (c.map f).isNone = c.isNone := by
  cases c <;> rfl

theorem isLeaf_updateInner (l : Nat) (t : OTree) :
    (updateInner (l + 1) t).isLeaf = t.isLeaf := by
  obtain ⟨v, c0, c1, c2, c3, c4, c5, c6, c7⟩ := t
  rw [updateInner]
  simp only [OTree.isLeaf, OTree.child, isNone_map]

theorem searchVal_updateInner (p : Params) (q : OcTreeKey) :
    ∀ (l : Nat) (t : OTree), depthLE l t = true →
      searchVal q l (updateInner l t) = searchVal q l t := by
  intro l
  induction l with
  | zero => intro t _; rfl
  | succ l ih =>
    intro t hd
    rcases hleaf : t.isLeaf with _ | _
    · rw [searchVal, if_neg (by rw [isLeaf_updateInner, hleaf]; simp)]
      rw [searchVal, if_neg (by rw [hleaf]; simp)]
      rw [updateInner_child l t (childIdx q l) (childIdx_lt q l)]
      rcases hc : t.child (childIdx q l) with _ | c
      · rfl
      · simp only [Option.map_some]
        exact ih c (depthLE_child l t hd (childIdx q l) c hc)
    · rw [searchVal_leaf q (l + 1) t hleaf]
      rw [searchVal_leaf q (l + 1) (updateInner (l + 1) t)
        (by rw [isLeaf_updateInner, hleaf])]
      have : (updateInner (l + 1) t).val = t.val := by
        obtain ⟨v, c0, c1, c2, c3, c4, c5, c6, c7⟩ := t
        simp only [OTree.isLeaf, Bool.and_eq_true, Option.isNone_iff_eq_none]
          at hleaf
        obtain ⟨⟨⟨⟨⟨⟨⟨h0, h1⟩, h2⟩, h3⟩, h4⟩, h5⟩, h6⟩, h7⟩ := hleaf
        subst h0 h1 h2 h3 h4 h5 h6 h7
        rw [updateInner]
        rfl
      rw [this]

theorem updR_succ_false (p : Params) (delta : ℚ) (key : OcTreeKey)
    (l : Nat) (t : OTree) :
    updR p false delta key (l + 1) t =
      pruneNode (t.setChild (childIdx key l)
        (some (updR p false delta key l
          ((t.child (childIdx key l)).getD newNode)))) := by
  rw [updR]
  rfl

theorem updR_succ_true (p : Params) (delta : ℚ) (key : OcTreeKey)
    (l : Nat) (t : OTree) :
    updR p true delta key (l + 1) t =
      t.setChild (childIdx key l)
        (some (updR p true delta key l
          ((t.child (childIdx key l)).getD newNode))) := by
  rw [updR]
  rfl

theorem depthLE_setChild_upd (p : Params) (lazy : Bool) (delta : ℚ)
    (key : OcTreeKey) (l : Nat) (t : OTree) (hd : depthLE (l + 1) t = true)
    (ih : ∀ u : OTree, depthLE l u = true →
      depthLE l (updR p lazy delta key l u) = true) :
    depthLE (l + 1)
      (t.setChild (childIdx key l)
        (some (updR p lazy delta key l
          ((t.child (childIdx key l)).getD newNode)))) = true := by
  have hi : childIdx key l < 8 := childIdx_lt key l
  apply depthLE_succ_intro
  intro j hj c hc
  by_cases hij : childIdx key l = j
  · subst hij
    rw [child_setChild_self _ _ hi] at hc
    obtain rfl : c = updR p lazy delta key l
        ((t.child (childIdx key l)).getD newNode) := by simpa using hc.symm
    rcases hcc : t.child (childIdx key l) with _ | c0 <;>
      simp only [hcc, Option.getD_none, Option.getD_some]
    · exact ih newNode (depthLE_of_isLeaf newNode rfl l)
    · exact ih c0 (depthLE_child l t hd (childIdx key l) c0 hcc)
  · rw [child_setChild_other _ _ _ hij] at hc
    exact depthLE_child l t hd j c hc

theorem depthLE_pruneNode (l : Nat) (u : OTree)
    (h : depthLE (l + 1) u = true) : depthLE (l + 1) (pruneNode u) = true := by
  unfold pruneNode
  rcases hp : prunableVal u with _ | w
  · exact h
  · exact depthLE_of_isLeaf (mkLeaf w) rfl (l + 1)

theorem depthLE_updR (p : Params) (lazy : Bool) (delta : ℚ) (key : OcTreeKey) :
    ∀ (l : Nat) (t : OTree), depthLE l t = true →
      depthLE l (updR p lazy delta key l t) = true := by
  intro l
  induction l with
  | zero =>
    intro t hd
    rw [updR_zero]
    show (updateNodeLogOdds p t delta).isLeaf = true
    rw [isLeaf_updateNodeLogOdds]
    exact hd
  | succ l ih =>
    intro t hd
    rcases lazy with _ | _
    · rw [updR_succ_false]
      exact depthLE_pruneNode l _ (depthLE_setChild_upd p false delta key l t hd ih)
    · rw [updR_succ_true]
      exact depthLE_setChild_upd p true delta key l t hd ih

theorem updR_search_eq (p : Params) (delta : ℚ) (key : OcTreeKey) :
    ∀ (l : Nat) (t : OTree) (q : OcTreeKey),
      searchVal q l (updR p false delta key l t) =
        searchVal q l (updR p true delta key l t) := by
  intro l
  induction l with
  | zero => intro t q; rfl
  | succ l ih =>
    intro t q
    rw [updR_succ_false, updR_succ_true]
    rw [searchVal_pruneNode]
    have hi : childIdx key l < 8 := childIdx_lt key l
    have hleafF := isLeaf_setChild_some t (childIdx key l) hi
      (updR p false delta key l ((t.child (childIdx key l)).getD newNode))
    have hleafT := isLeaf_setChild_some t (childIdx key l) hi
      (updR p true delta key l ((t.child (childIdx key l)).getD newNode))
    rw [searchVal, if_neg (by rw [hleafF]; simp)]
    rw [searchVal, if_neg (by rw [hleafT]; simp)]
    by_cases hij : childIdx key l = childIdx q l
    · rw [← hij]
      rw [child_setChild_self _ _ hi, child_setChild_self _ _ hi]
      simp only
      exact ih ((t.child (childIdx key l)).getD newNode) q
    · rw [child_setChild_other _ _ _ hij, child_setChild_other _ _ _ hij]

theorem pruneNode_shape (u : OTree) :
    pruneNode u = u ∨
      ∃ w, (∀ i, i < 8 → u.child i = some (mkLeaf w)) ∧
        pruneNode u = mkLeaf w := by
  unfold pruneNode
  rcases hp : prunableVal u with _ | w
  · exact Or.inl rfl
  · exact Or.inr ⟨w, prunableVal_children u w hp, rfl⟩

/-- Claim C3: pruning is lossless — after an eager (`lazy_eval = false`)
`updateNode` followed by `updateInnerOccupancy`, every key searches to the
same occupancy classification as in the unpruned (lazy) tree; and pruning
only ever replaces eight existing equal-valued sibling leaves by a parent
leaf carrying that value. -/
theorem claim_C3 (p : Params) (delta : ℚ) (key q : OcTreeKey) (l : Nat)
    (t : OTree) (hd : depthLE l t = true) :
    ((searchVal q l (updateInner l (updR p false delta key l t))).map
        (isOccVal p) =
      (searchVal q l (updR p true delta key l t)).map (isOccVal p)) ∧
    (∀ u : OTree, pruneNode u = u ∨
      ∃ w, (∀ i, i < 8 → u.child i = some (mkLeaf w)) ∧
        pruneNode u = mkLeaf w) := by
  constructor
  · rw [searchVal_updateInner p q l _ (depthLE_updR p false delta key l t hd)]
    rw [updR_search_eq p delta key l t q]
  · exact pruneNode_shape

theorem claim_C3_w :
    (searchVal keyHigh 16
        (updateInner 16 (updR pEx false 1 keyLow 16 newNode))).map
        (isOccVal pEx) =
      (searchVal keyHigh 16 (updR pEx true 1 keyLow 16 newNode)).map
        (isOccVal pEx) :=
  (claim_C3 pEx 1 keyLow keyHigh 16 newNode (by decide)).1


theorem leaf_eq_mkLeaf (t : OTree) (h : t.isLeaf = true) : t = mkLeaf t.val := by
  obtain ⟨v, c0, c1, c2, c3, c4, c5, c6, c7⟩ := t
  simp only [OTree.isLeaf, Bool.and_eq_true, Option.isNone_iff_eq_none] at h
  obtain ⟨⟨⟨⟨⟨⟨⟨h0, h1⟩, h2⟩, h3⟩, h4⟩, h5⟩, h6⟩, h7⟩ := h
  subst h0 h1 h2 h3 h4 h5 h6 h7
  rfl

theorem ml_zero_child (p : Params) (t : OTree) (i : Nat) (hi : i < 8) :
    (toMaxLikelihood p 0 t).child i = t.child i := by
  rw [toMaxLikelihood]
  rcases i with _|_|_|_|_|_|_|_|i <;> first | rfl | omega

theorem isLeaf_node_maps (v : ℚ) (f : OTree → OTree) (t : OTree) :
    (OTree.node v ((t.child 0).map f) ((t.child 1).map f) ((t.child 2).map f)
      ((t.child 3).map f) ((t.child 4).map f) ((t.child 5).map f)
      ((t.child 6).map f) ((t.child 7).map f)).isLeaf = t.isLeaf := by
  obtain ⟨w, c0, c1, c2, c3, c4, c5, c6, c7⟩ := t
  simp only [OTree.isLeaf, OTree.child, isNone_map]

theorem child_node_maps (v : ℚ) (f : OTree → OTree) (t : OTree) (i : Nat)
    (hi : i < 8) :
    (OTree.node v ((t.child 0).map f) ((t.child 1).map f) ((t.child 2).map f)
      ((t.child 3).map f) ((t.child 4).map f) ((t.child 5).map f)
      ((t.child 6).map f) ((t.child 7).map f)).child i = (t.child i).map f := by
  rcases i with _|_|_|_|_|_|_|_|i <;> first | rfl | omega

theorem isLeaf_ml (p : Params) (l : Nat) (t : OTree) :
    (toMaxLikelihood p l t).isLeaf = t.isLeaf := by
  cases l with
  | zero =>
    obtain ⟨w, c0, c1, c2, c3, c4, c5, c6, c7⟩ := t
    rw [toMaxLikelihood]
    simp only [OTree.isLeaf, OTree.child]
  | succ l =>
    rw [ml_unfold_succ]
    exact isLeaf_node_maps _ _ t

theorem depthLE_ml (p : Params) : ∀ (l : Nat) (t : OTree),
    depthLE l t = true → depthLE l (toMaxLikelihood p l t) = true := by
  intro l
  induction l with
  | zero =>
    intro t hd
    show (toMaxLikelihood p 0 t).isLeaf = true
    rw [isLeaf_ml]
    exact hd
  | succ l ih =>
    intro t hd
    apply depthLE_succ_intro
    intro i hi c hc
    rw [ml_child_succ p l t i hi] at hc
    rcases Option.map_eq_some'.mp hc with ⟨u0, hu0, rfl⟩
    exact ih u0 (depthLE_child l t hd i u0 hu0)

theorem ml_leafVals_shape (p : Params) : ∀ (l : Nat) (t : OTree) (v' : ℚ),
    v' ∈ leafVals l (toMaxLikelihood p l t) → ∃ w, v' = mlVal p w := by
  intro l
  induction l with
  | zero =>
    intro t v' h
    rw [leafVals] at h
    exact ⟨t.val, by rw [ml_val] at h; simpa using h⟩
  | succ l ih =>
    intro t v' h
    rcases leafVals_mem_cases l _ v' h with ⟨_, h'⟩ | ⟨i, u, hi, hc, hm⟩
    · exact ⟨t.val, by rw [ml_val] at h'; exact h'⟩
    · rw [ml_child_succ p l t i hi] at hc
      rcases Option.map_eq_some'.mp hc with ⟨u0, hu0, rfl⟩
      exact ih u0 v' hm

theorem pruneAll_succ (l : Nat) (t : OTree) :
    pruneAll (l + 1) t =
      pruneNode (.node t.val
        ((t.child 0).map (pruneAll l)) ((t.child 1).map (pruneAll l))
        ((t.child 2).map (pruneAll l)) ((t.child 3).map (pruneAll l))
        ((t.child 4).map (pruneAll l)) ((t.child 5).map (pruneAll l))
        ((t.child 6).map (pruneAll l)) ((t.child 7).map (pruneAll l))) := by
  rw [pruneAll]

theorem depthLE_pruneAll : ∀ (l : Nat) (t : OTree),
    depthLE l t = true → depthLE l (pruneAll l t) = true := by
  intro l
  induction l with
  | zero => intro t hd; exact hd
  | succ l ih =>
    intro t hd
    rw [pruneAll_succ]
    apply depthLE_pruneNode
    apply depthLE_succ_intro
    intro i hi c hc
    rw [child_node_maps t.val (pruneAll l) t i hi] at hc
    rcases Option.map_eq_some'.mp hc with ⟨u0, hu0, rfl⟩
    exact ih u0 (depthLE_child l t hd i u0 hu0)

theorem leafVals_pruneAll_subset : ∀ (l : Nat) (t : OTree) (v' : ℚ),
    v' ∈ leafVals l (pruneAll l t) → v' ∈ leafVals l t := by
  intro l
  induction l with
  | zero => intro t v' h; exact h
  | succ l ih =>
    intro t v' h
    rw [pruneAll_succ] at h
    have h2 := leafVals_pruneNode l _ v' h
    rcases leafVals_mem_cases l _ v' h2 with ⟨hlf, hv⟩ | ⟨i, u, hi, hc, hm⟩
    · rw [isLeaf_node_maps] at hlf
      simp only [OTree.val] at hv
      rw [leafVals, if_pos hlf]
      simpa using hv
    · rw [child_node_maps t.val (pruneAll l) t i hi] at hc
      rcases Option.map_eq_some'.mp hc with ⟨u0, hu0, rfl⟩
      exact leafVals_of_child l i t u0 hi hu0 v' (ih u0 v' hm)

theorem leafVals_leaf (l : Nat) (u : OTree) (h : u.isLeaf = true) :
    leafVals l u = [u.val] := by
  conv_lhs => rw [leaf_eq_mkLeaf u h]
  rw [leafVals_mkLeaf]

theorem decChild_enc (p : Params) (l : Nat) (c : Option OTree)
    (hlo : p.clampingThresMin < p.occProbThresLog)
    (hhi : p.occProbThresLog ≤ p.clampingThresMax)
    (hml : ∀ u, c = some u → u.isLeaf = true →
      u.val = p.clampingThresMin ∨ u.val = p.clampingThresMax)
    (hin : ∀ u, c = some u → u.isLeaf = false → ∀ rest',
      decNode p l (encNode p l u ++ rest') = some (scrub l u, rest'))
    (rest' : List Slot) :
    decChild p (decNode p l) (slotOf p c) (encChild (encNode p l) c ++ rest') =
      some (c.map (fun u => if u.isLeaf then u else scrub l u), rest') := by
  cases c with
  | none => rfl
  | some u =>
    rcases hleaf : u.isLeaf with _ | _
    · have hs : slotOf p (some u) = .innerM := by simp [slotOf, hleaf]
      have he : encChild (encNode p l) (some u) = encNode p l u := by
        simp [encChild, hleaf]
      rw [hs, he, decChild]
      rw [hin u rfl hleaf rest']
      simp [hleaf]
    · rcases hml u rfl hleaf with hv | hv
      · have hs : slotOf p (some u) = .freeL := by
          simp [slotOf, hleaf, isOccVal, hv, not_le.mpr hlo]
        have he : encChild (encNode p l) (some u) = [] := by
          simp [encChild, hleaf]
        rw [hs, he, List.nil_append, decChild]
        have : mkLeaf p.clampingThresMin = u := by
          rw [← hv]
          exact (leaf_eq_mkLeaf u hleaf).symm
        rw [this]
        simp [hleaf]
      · have hs : slotOf p (some u) = .occL := by
          simp [slotOf, hleaf, isOccVal, hv, hhi]
        have he : encChild (encNode p l) (some u) = [] := by
          simp [encChild, hleaf]
        rw [hs, he, List.nil_append, decChild]
        have : mkLeaf p.clampingThresMax = u := by
          rw [← hv]
          exact (leaf_eq_mkLeaf u hleaf).symm
        rw [this]
        simp [hleaf]

theorem scrub_succ (l : Nat) (t : OTree) :
    scrub (l + 1) t =
      .node 0
        ((t.child 0).map (fun c => if c.isLeaf then c else scrub l c))
        ((t.child 1).map (fun c => if c.isLeaf then c else scrub l c))
        ((t.child 2).map (fun c => if c.isLeaf then c else scrub l c))
        ((t.child 3).map (fun c => if c.isLeaf then c else scrub l c))
        ((t.child 4).map (fun c => if c.isLeaf then c else scrub l c))
        ((t.child 5).map (fun c => if c.isLeaf then c else scrub l c))
        ((t.child 6).map (fun c => if c.isLeaf then c else scrub l c))
        ((t.child 7).map (fun c => if c.isLeaf then c else scrub l c)) := by
  rw [scrub]

theorem decNode_enc (p : Params)
    (hlo : p.clampingThresMin < p.occProbThresLog)
    (hhi : p.occProbThresLog ≤ p.clampingThresMax) :
    ∀ (l : Nat) (t : OTree), depthLE l t = true →
      (∀ v' ∈ leafVals l t,
        v' = p.clampingThresMin ∨ v' = p.clampingThresMax) →
      t.isLeaf = false → ∀ rest : List Slot,
      decNode p l (encNode p l t ++ rest) = some (scrub l t, rest) := by
  intro l
  induction l with
  | zero =>
    intro t hd _ hnl
    have : t.isLeaf = true := hd
    rw [this] at hnl
    exact absurd hnl (by simp)
  | succ l ih =>
    intro t hd hml hnl rest
    have hc : ∀ i, i < 8 → ∀ rest' : List Slot,
        decChild p (decNode p l) (slotOf p (t.child i))
          (encChild (encNode p l) (t.child i) ++ rest') =
        some ((t.child i).map (fun u => if u.isLeaf then u else scrub l u),
          rest') := by
      intro i hi rest'
      apply decChild_enc p l (t.child i) hlo hhi
      · intro u hu hul
        exact hml u.val (leafVals_of_child l i t u hi hu u.val
          (by rw [leafVals_leaf l u hul]; simp))
      · intro u hu hul rest''
        exact ih u (depthLE_child l t hd i u hu)
          (fun v' hv' => hml v' (leafVals_of_child l i t u hi hu v' hv'))
          hul rest''
    rw [encNode]
    simp only [List.cons_append, List.nil_append, List.append_assoc]
    rw [decNode]
    rw [hc 0 (by omega)]
    simp only [Option.bind_eq_bind', Option.some_bind]
    rw [hc 1 (by omega)]
    simp only [Option.bind_eq_bind', Option.some_bind]
    rw [hc 2 (by omega)]
    simp only [Option.bind_eq_bind', Option.some_bind]
    rw [hc 3 (by omega)]
    simp only [Option.bind_eq_bind', Option.some_bind]
    rw [hc 4 (by omega)]
    simp only [Option.bind_eq_bind', Option.some_bind]
    rw [hc 5 (by omega)]
    simp only [Option.bind_eq_bind', Option.some_bind]
    rw [hc 6 (by omega)]
    simp only [Option.bind_eq_bind', Option.some_bind]
    rw [hc 7 (by omega)]
    simp only [Option.bind_eq_bind', Option.some_bind]
    rw [scrub_succ]

theorem leafList_succ (l : Nat) (k : OcTreeKey) (t : OTree)
    (h : t.isLeaf = false) :
    leafList (l + 1) k t =
      ((t.child 0).elim [] (leafList l (childKey k l 0))) ++
      ((t.child 1).elim [] (leafList l (childKey k l 1))) ++
      ((t.child 2).elim [] (leafList l (childKey k l 2))) ++
      ((t.child 3).elim [] (leafList l (childKey k l 3))) ++
      ((t.child 4).elim [] (leafList l (childKey k l 4))) ++
      ((t.child 5).elim [] (leafList l (childKey k l 5))) ++
      ((t.child 6).elim [] (leafList l (childKey k l 6))) ++
      ((t.child 7).elim [] (leafList l (childKey k l 7))) := by
  rw [leafList, if_neg (by rw [h]; simp)]
  rcases h0 : t.child 0 with _ | u0 <;> rcases h1 : t.child 1 with _ | u1 <;>
    rcases h2 : t.child 2 with _ | u2 <;> rcases h3 : t.child 3 with _ | u3 <;>
    rcases h4 : t.child 4 with _ | u4 <;> rcases h5 : t.child 5 with _ | u5 <;>
    rcases h6 : t.child 6 with _ | u6 <;> rcases h7 : t.child 7 with _ | u7 <;>
    rfl

theorem isLeaf_scrub_succ (l : Nat) (t : OTree) :
    (scrub (l + 1) t).isLeaf = t.isLeaf := by
  rw [scrub_succ]
  exact isLeaf_node_maps _ _ t

theorem child_scrub_succ (l : Nat) (t : OTree) (i : Nat) (hi : i < 8) :
    (scrub (l + 1) t).child i =
      (t.child i).map (fun c => if c.isLeaf then c else scrub l c) := by
  rw [scrub_succ]
  exact child_node_maps _ _ t i hi

theorem leafList_scrub : ∀ (l : Nat) (t : OTree) (k : OcTreeKey),
    depthLE l t = true → t.isLeaf = false →
    leafList l k (scrub l t) = leafList l k t := by
  intro l
  induction l with
  | zero =>
    intro t k hd hnl
    have hlt : t.isLeaf = true := hd
    rw [hlt] at hnl
    exact absurd hnl (by simp)
  | succ l ih =>
    intro t k hd hnl
    rw [leafList_succ l k t hnl]
    rw [leafList_succ l k (scrub (l + 1) t) (by rw [isLeaf_scrub_succ]; exact hnl)]
    have e : ∀ i, i < 8 →
        ((scrub (l + 1) t).child i).elim [] (leafList l (childKey k l i)) =
        (t.child i).elim [] (leafList l (childKey k l i)) := by
      intro i hi
      rw [child_scrub_succ l t i hi]
      rcases hc : t.child i with _ | u
      · rfl
      · rcases hu : u.isLeaf with _ | _
        · simp only [Option.map_some', Option.elim_some, hu,
            if_neg Bool.false_ne_true]
          exact ih u (childKey k l i) (depthLE_child l t hd i u hc) hu
        · simp [hu]
    rw [e 0 (by omega), e 1 (by omega), e 2 (by omega), e 3 (by omega),
      e 4 (by omega), e 5 (by omega), e 6 (by omega), e 7 (by omega)]

/-- Claim C4 (amended): binary round-trip — for a depth-bounded tree whose
pruned maximum-likelihood form retains at least one child at the root,
decoding the encoding of `prune(toMaxLikelihood(T))` reproduces that tree
exactly up to the neutral values of inner nodes, so the occupied/free leaf
enumerations in depth-16 key order coincide; and decoding reconstructs
free leaves at `clampingThresMin` and occupied leaves at
`clampingThresMax`.  (For a childless root the round-trip fails, as the
2-byte node format stores no root value.) -/
theorem claim_C4 (p : Params) (T : OTree) (k0 : OcTreeKey)
    (hlo : p.clampingThresMin < p.occProbThresLog)
    (hhi : p.occProbThresLog ≤ p.clampingThresMax)
    (hd : depthLE 16 T = true)
    (hnl : (pruneAll 16 (toMaxLikelihood p 16 T)).isLeaf = false) :
    decNode p 16 (encNode p 16 (pruneAll 16 (toMaxLikelihood p 16 T))) =
      some (scrub 16 (pruneAll 16 (toMaxLikelihood p 16 T)), []) ∧
    leafList 16 k0 (scrub 16 (pruneAll 16 (toMaxLikelihood p 16 T))) =
      leafList 16 k0 (pruneAll 16 (toMaxLikelihood p 16 T)) ∧
    (∀ (dec : List Slot → Option (OTree × List Slot)) (rest : List Slot),
      decChild p dec .freeL rest =
        some (some (mkLeaf p.clampingThresMin), rest) ∧
      decChild p dec .occL rest =
        some (some (mkLeaf p.clampingThresMax), rest)) := by
  have hd' : depthLE 16 (pruneAll 16 (toMaxLikelihood p 16 T)) = true :=
    depthLE_pruneAll 16 _ (depthLE_ml p 16 T hd)
  have hml' : ∀ v' ∈ leafVals 16 (pruneAll 16 (toMaxLikelihood p 16 T)),
      v' = p.clampingThresMin ∨ v' = p.clampingThresMax := by
    intro v' hv'
    have h2 := leafVals_pruneAll_subset 16 _ v' hv'
    rcases ml_leafVals_shape p 16 T v' h2 with ⟨w, rfl⟩
    unfold mlVal
    split
    · exact Or.inr rfl
    · exact Or.inl rfl
  refine ⟨?_, leafList_scrub 16 _ k0 hd' hnl, fun dec rest => ⟨rfl, rfl⟩⟩
  have := decNode_enc p hlo hhi 16 _ hd' hml' hnl []
  simpa using this

theorem claim_C4_w :
    decNode pEx 16 (encNode pEx 16 (pruneAll 16 (toMaxLikelihood pEx 16 treeEx))) =
      some (scrub 16 (pruneAll 16 (toMaxLikelihood pEx 16 treeEx)), []) :=
  (claim_C4 pEx treeEx ⟨0, 0, 0⟩ (by norm_num [pEx]) (by norm_num [pEx])
    (by decide) (by decide)).1

/-- Claim C4, original form, refuted: the uniformly free map `mkLeaf (-2)`
has `prune(toMaxLikelihood(T))` equal to a childless root (a free leaf at
`clampingThresMin = -2`), whose encoding is eight absent slot codes with
no root value; decoding returns a root at the neutral prior 0, which is
classified occupied (`occProbThresLog = 0`), so the occupied/free leaf
enumerations of the decoded tree and of `prune(toMaxLikelihood(T))`
differ. -/
theorem claim_C4_cex :
    decNode pEx 16
        (encNode pEx 16 (pruneAll 16 (toMaxLikelihood pEx 16 (mkLeaf (-2))))) =
      some (.node 0 none none none none none none none none, []) ∧
    leafList 16 ⟨0, 0, 0⟩
        (OTree.node 0 none none none none none none none none) ≠
      leafList 16 ⟨0, 0, 0⟩ (pruneAll 16 (toMaxLikelihood pEx 16 (mkLeaf (-2)))) ∧
    isOccVal pEx 0 = true ∧
    isOccVal pEx (pruneAll 16 (toMaxLikelihood pEx 16 (mkLeaf (-2)))).val =
      false :=
  ⟨rfl, by decide, rfl, by decide⟩

end Octomap
